import Mathlib

/-!
Verification of the skeleton/bone correction and keyframe retargeting pipeline
of the blender_nif_plugin importer.  The Python modules
`io_scene_nif/modules/armature/armature_import.py` and
`io_scene_nif/modules/animation/animation_import.py` are shallowly embedded:
matrices, vectors and quaternions become rational-valued structures, Python's
`int()` truncation and dictionary code become explicit Lean functions, and the
recursive tree walks become fueled recursions.  Host-API calls (Blender's
`normalize`, `decompose`, f-curve `evaluate`, `** 0.5`) enter as explicit
function parameters so that every definition stays executable.
-/

set_option autoImplicit false

namespace NifPlugin

/-- Python `int(q)`: truncation of a rational toward zero. -/
def pytrunc (q : ℚ) : ℤ := if 0 ≤ q then ⌊q⌋ else ⌈q⌉

/-- Rounding as the source writes it everywhere: `int(q + 0.5)`. -/
def pyround (q : ℚ) : ℤ := pytrunc (q + 1/2)

/-- A 3-component vector with rational entries (models `mathutils.Vector`). -/
@[ext] structure V3 where
  x : ℚ
  y : ℚ
  z : ℚ
deriving DecidableEq

namespace V3

def add (a b : V3) : V3 := ⟨a.x + b.x, a.y + b.y, a.z + b.z⟩

def sub (a b : V3) : V3 := ⟨a.x - b.x, a.y - b.y, a.z - b.z⟩

def neg (a : V3) : V3 := ⟨-a.x, -a.y, -a.z⟩

def smul (c : ℚ) (a : V3) : V3 := ⟨c * a.x, c * a.y, c * a.z⟩

def zero : V3 := ⟨0, 0, 0⟩

end V3

/-- A quaternion with rational components in mathutils `(w, x, y, z)` order. -/
@[ext] structure Quat where
  w : ℚ
  x : ℚ
  y : ℚ
  z : ℚ
deriving DecidableEq

namespace Quat

/-- Hamilton product, as mathutils `Quaternion.cross` computes it. -/
def mul (p q : Quat) : Quat :=
  ⟨p.w * q.w - p.x * q.x - p.y * q.y - p.z * q.z,
   p.w * q.x + p.x * q.w + p.y * q.z - p.z * q.y,
   p.w * q.y - p.x * q.z + p.y * q.w + p.z * q.x,
   p.w * q.z + p.x * q.y - p.y * q.x + p.z * q.w⟩

/-- The identity quaternion `(1, 0, 0, 0)` (mathutils `Quaternion()`). -/
def one : Quat := ⟨1, 0, 0, 0⟩

end Quat

/-- A 3x3 matrix with rational entries (models `mathutils.Matrix`), row major:
`aij` is row `i`, column `j`. -/
@[ext] structure Mat3 where
  a11 : ℚ
  a12 : ℚ
  a13 : ℚ
  a21 : ℚ
  a22 : ℚ
  a23 : ℚ
  a31 : ℚ
  a32 : ℚ
  a33 : ℚ
deriving DecidableEq

namespace Mat3

/-- The identity matrix (`Armature.IDENTITY44.to_3x3()`). -/
def id3 : Mat3 := ⟨1, 0, 0, 0, 1, 0, 0, 0, 1⟩

def mul (m n : Mat3) : Mat3 :=
  ⟨m.a11 * n.a11 + m.a12 * n.a21 + m.a13 * n.a31,
   m.a11 * n.a12 + m.a12 * n.a22 + m.a13 * n.a32,
   m.a11 * n.a13 + m.a12 * n.a23 + m.a13 * n.a33,
   m.a21 * n.a11 + m.a22 * n.a21 + m.a23 * n.a31,
   m.a21 * n.a12 + m.a22 * n.a22 + m.a23 * n.a32,
   m.a21 * n.a13 + m.a22 * n.a23 + m.a23 * n.a33,
   m.a31 * n.a11 + m.a32 * n.a21 + m.a33 * n.a31,
   m.a31 * n.a12 + m.a32 * n.a22 + m.a33 * n.a32,
   m.a31 * n.a13 + m.a32 * n.a23 + m.a33 * n.a33⟩

/-- Matrix action on a column vector (mathutils `Matrix * Vector`). -/
def mulVec (m : Mat3) (v : V3) : V3 :=
  ⟨m.a11 * v.x + m.a12 * v.y + m.a13 * v.z,
   m.a21 * v.x + m.a22 * v.y + m.a23 * v.z,
   m.a31 * v.x + m.a32 * v.y + m.a33 * v.z⟩

/-- Scaling a matrix by a scalar (mathutils `Matrix * scalar`). -/
def smul (c : ℚ) (m : Mat3) : Mat3 :=
  ⟨c * m.a11, c * m.a12, c * m.a13,
   c * m.a21, c * m.a22, c * m.a23,
   c * m.a31, c * m.a32, c * m.a33⟩

def det (m : Mat3) : ℚ :=
  m.a11 * (m.a22 * m.a33 - m.a23 * m.a32)
    - m.a12 * (m.a21 * m.a33 - m.a23 * m.a31)
    + m.a13 * (m.a21 * m.a32 - m.a22 * m.a31)

end Mat3

/-- Rotation matrix of a (unit) quaternion, as mathutils `Quaternion.to_matrix`
computes it. -/
def quatToMat (q : Quat) : Mat3 :=
  ⟨1 - 2 * (q.y * q.y + q.z * q.z), 2 * (q.x * q.y - q.w * q.z), 2 * (q.x * q.z + q.w * q.y),
   2 * (q.x * q.y + q.w * q.z), 1 - 2 * (q.x * q.x + q.z * q.z), 2 * (q.y * q.z - q.w * q.x),
   2 * (q.x * q.z - q.w * q.y), 2 * (q.y * q.z + q.w * q.x), 1 - 2 * (q.x * q.x + q.y * q.y)⟩

/-! ### Correction matrix selection (`Armature.find_correction_matrix`) -/

/-- The six hardcoded bone correction matrices of `Armature`, in source order
`+X, +Y, +Z, -X, -Y, -Z`. -/
def BONE_CORRECTION_MATRICES : List Mat3 :=
  [⟨0, -1, 0, 1, 0, 0, 0, 0, 1⟩,
   ⟨1, 0, 0, 0, 1, 0, 0, 0, 1⟩,
   ⟨1, 0, 0, 0, 0, 1, 0, -1, 0⟩,
   ⟨0, 1, 0, -1, 0, 0, 0, 0, 1⟩,
   ⟨-1, 0, 0, 0, -1, 0, 0, 0, 1⟩,
   ⟨1, 0, 0, 0, 0, -1, 0, 1, 0⟩]

/-- The list `[int(c * 200) for c in (sum_x, sum_y, sum_z, -sum_x, -sum_y, -sum_z)]`. -/
def truncCandidates (sx sy sz : ℚ) : List ℤ :=
  [pytrunc (sx * 200), pytrunc (sy * 200), pytrunc (sz * 200),
   pytrunc (-sx * 200), pytrunc (-sy * 200), pytrunc (-sz * 200)]

/-- Python `max` over a list of integers (the lists fed to it are nonempty). -/
def listMax : List ℤ → ℤ
  | [] => 0
  | a :: as => as.foldl max a

/-- Python `l.index(max(l))`: the index of the first occurrence of the maximum. -/
def pyIndexMax (l : List ℤ) : ℕ := l.indexOf (listMax l)

/-- The `alignment_offset` cascade of `find_correction_matrix`, given the chosen
index and the accumulated offset components. -/
def alignmentOffset (sx sy sz : ℚ) (idx : ℕ) : ℚ :=
  if (idx = 0 ∨ idx = 3) ∧ 0 < |sx| then (|sy| + |sz|) / |sx|
  else if (idx = 1 ∨ idx = 4) ∧ 0 < |sy| then (|sz| + |sx|) / |sy|
  else if 0 < |sz| then (|sx| + |sy|) / |sz|
  else 0

/-- Embedding of `Armature.find_correction_matrix`.  The accumulated offset
components `(sx, sy, sz)` are the `sum_x, sum_y, sum_z` the source extracts
from the node (or children) matrices; `realign` is
`NifOp.props.import_realign_bones` and `isB` the result of `self.is_bone`. -/
def find_correction_matrix (realign : ℤ) (isB : Bool) (sx sy sz : ℚ) : Mat3 :=
  if realign = 2 ∧ isB = true then
    let idx := pyIndexMax (truncCandidates sx sy sz)
    if alignmentOffset sx sy sz idx < 1/4 then
      BONE_CORRECTION_MATRICES.getD idx Mat3.id3
    else Mat3.id3
  else Mat3.id3

/-! ### Frame rate estimation (`AnimationHelper.get_frames_per_second`) -/

/-- Total rounding error `sum(abs(int(time * fps + 0.5) - (time * fps)))` of a
candidate frame rate over a list of key times. -/
def fpsError (fps : ℤ) (times : List ℚ) : ℚ :=
  (times.map fun t => |((pyround (t * fps) : ℚ)) - t * fps|).sum

/-- Embedding of `AnimationHelper.get_frames_per_second`, given the list of all
collected key times: 30 when no keys exist, otherwise the loop over the
candidates `[20, 25, 35]` starting from the default 30, replacing the current
best only on strict improvement of the total rounding error. -/
def get_frames_per_second (times : List ℚ) : ℤ :=
  if times = [] then 30
  else
    (([20, 25, 35] : List ℤ).foldl
      (fun best test_fps =>
        if fpsError test_fps times < best.2 then (test_fps, fpsError test_fps times) else best)
      (30, fpsError 30 times)).1

/-- Frame index of a key: `1 + int(time * fps + 0.5)`, as computed in
`import_armature_animation` and `set_animation` (time 0.0 is frame 1). -/
def frameOfTime (t fps : ℚ) : ℤ := 1 + pytrunc (t * fps + 1/2)

/-! ### Bone tree completion (`Armature.complete_bone_tree`)

Scene-graph nodes are identified with natural numbers and the (weak) parent
back-reference becomes a function `parent : ℕ → ℕ`; the armature's bone list
`armature.DICT_ARMATURES[skelroot]` becomes an explicit `List ℕ` threaded
through the recursion.  The recursion of the source ascends the parent chain;
here it is expressed with explicit fuel, and termination is captured by the
theorem that the result is independent of any fuel at least the distance from
the bone to the skeleton root. -/

/-- Embedding of `Armature.complete_bone_tree`: walk the parent chain upward
from `bone`, appending any unmarked ancestor to the bone list, stopping at
`skelroot`. -/
def complete_bone_tree (parent : ℕ → ℕ) (skelroot : ℕ) :
    ℕ → List ℕ → ℕ → List ℕ
  | _, bones, 0 => bones
  | bone, bones, fuel + 1 =>
    if parent bone = skelroot then bones
    else
      complete_bone_tree parent skelroot (parent bone)
        (if parent bone ∈ bones then bones else bones ++ [parent bone]) fuel

/-! ### Bone head/tail geometry (`Armature.import_bone`)

The geometric part of `import_bone` is embedded as a function of the bone's
armature-space head position and the armature-space positions of its immediate
bone children.  Blender's `Vector.normalize` is not rational-valued, so it is
passed in as an explicit function parameter `normalize`; everything else is
computed exactly as the source does. -/

/-- Average of the children's armature-space positions, componentwise, as
`import_bone` computes the tail (`sum(child_matrix[i][3] ...) / len(...)`). -/
def childAverage (children : List V3) : V3 :=
  ⟨(children.map V3.x).sum / children.length,
   (children.map V3.y).sum / children.length,
   (children.map V3.z).sum / children.length⟩

/-- The `is_zero_length` flag of `Armature.import_bone`: initially true, and
recomputed as `abs(dx + dy + dz) * 200 < epsilon` on the signed components of
`head - average(children)` when the bone has children. -/
def isZeroLength (eps : ℚ) (head : V3) (children : List V3) : Bool :=
  if 0 < children.length then
    decide (|(head.x - (childAverage children).x) + (head.y - (childAverage children).y) +
      (head.z - (childAverage children).z)| * 200 < eps)
  else true

/-- The tail before any nub is applied: the children's average position when
children exist, otherwise the head itself (a temporary zero-length tail). -/
def baseTail (head : V3) (children : List V3) : V3 :=
  if 0 < children.length then childAverage children else head

/-- Embedding of the head/tail computation of `Armature.import_bone`.  Returns
`(head, tail, is_zero_length)`.  `realign` is
`NifOp.props.import_realign_bones`, `parentIsBone` is
`self.is_bone(n_block._parent)`, `eps` is `NifOp.props.epsilon`, `scale` is
`NifOp.props.scale_correction_import` (the nub length constant is 5.0), and
`parentHead`/`parentTail` are the already-imported parent edit-bone positions
used by the fallback branch.  In the fixed-direction nub branch the source
overwrites only the x coordinate of the tail, so the y and z coordinates keep
their pre-nub values. -/
def import_bone (realign : ℤ) (parentIsBone : Bool) (eps scale : ℚ)
    (normalize : V3 → V3) (head : V3) (children : List V3)
    (parentHead parentTail : V3) : V3 × V3 × Bool :=
  if isZeroLength eps head children = true then
    if realign = 2 ∨ parentIsBone = false then
      (head,
       ⟨head.x + 5 * scale, (baseTail head children).y, (baseTail head children).z⟩,
       true)
    else
      let d0 := V3.sub head parentTail
      let d1 :=
        if |d0.x + d0.y + d0.z| * 200 < eps then V3.sub parentTail parentHead else d0
      let dir := normalize d1
      (head,
       ⟨head.x + dir.x * 5 * scale, head.y + dir.y * 5 * scale, head.z + dir.z * 5 * scale⟩,
       true)
  else (head, baseTail head children, false)

/-! ### SRT decomposition (`Armature.decompose_srt`) -/

/-- Result triple of `decompose_srt`: a single scalar scale, a rotation matrix
and a translation vector. -/
@[ext] structure SRT where
  scale : ℚ
  rot : Mat3
  trans : V3
deriving DecidableEq

/-- Embedding of `Armature.decompose_srt`.  Blender's `matrix.decompose()` is a
host call, so its results `(trans_vec, rot_quat, scale_vec)` are the inputs
here, and the host power `** 0.5` enters as the function parameter `sq`.
Returns the `[b_scale, b_rot, b_trans]` triple together with the flag telling
whether the non-uniform-scale warning was logged (the source logs and
continues; there is no failure path). -/
def decompose_srt (sq : ℚ → ℚ) (eps : ℚ) (transVec : V3) (rotQuat : Quat)
    (scaleVec : V3) : SRT × Bool :=
  let scaleRot := quatToMat rotQuat
  let bScale0 : V3 := ⟨sq scaleVec.x, sq scaleVec.y, sq scaleVec.z⟩
  let bScale1 := if scaleRot.det < 0 then V3.neg bScale0 else bScale0
  let warn := decide (eps ≤ |scaleVec.x - scaleVec.y| ∨ eps ≤ |scaleVec.y - scaleVec.z|)
  ({ scale := bScale1.x, rot := Mat3.smul bScale1.x scaleRot, trans := transVec }, warn)

/-! ### Keyframe retargeting (`ArmatureAnimation.import_armature_animation`)

Per-key channel values.  The bind pose enters through its decomposition
(`niBone_bind_scale`, `niBone_bind_rot_inv`, `niBone_bind_quat_inv`,
`niBone_bind_trans`) and the per-bone extra/correction matrix through its
decomposition (`extra_matrix_scale`, `extra_matrix_rot_inv`,
`extra_matrix_quat`, `extra_matrix_quat_inv`, `extra_matrix_trans`), exactly
the quantities the source precomputes before its key loops. -/

/-- Scale channel value: `size = sizeVal / niBone_bind_scale`. -/
def scaleChannelValue (sizeVal bindScale : ℚ) : ℚ := sizeVal / bindScale

/-- Rotation sample of the Euler branch (rotation type 4): the source computes
`quatVal = quat.cross(niBone_bind_quat_inv)` followed by
`rot = extra_matrix_quat_inv.cross(quatVal)` and `rot = rot.cross(extra_matrix_quat)`,
where `quat` is the Euler key converted by `euler.to_quaternion()`. -/
def eulerRotValue (quat bindQuatInv xQuatInv xQuat : Quat) : Quat :=
  Quat.mul (Quat.mul xQuatInv (Quat.mul quat bindQuatInv)) xQuat

/-- Rotation sample of the quaternion-key branch: the source computes
`quatVal = niBone_bind_quat_inv.cross(quat)` followed by the same
extra-matrix conjugation. -/
def quaternionRotValue (quat bindQuatInv xQuatInv xQuat : Quat) : Quat :=
  Quat.mul (Quat.mul xQuatInv (Quat.mul bindQuatInv quat)) xQuat

/-- Rotation sample of the B-spline branch: identical in structure to the
quaternion-key branch (`quatVal = niBone_bind_quat_inv.cross(quat)` then the
extra-matrix conjugation). -/
def bsplineRotValue (quat bindQuatInv xQuatInv xQuat : Quat) : Quat :=
  Quat.mul (Quat.mul xQuatInv (Quat.mul bindQuatInv quat)) xQuat

/-- Translation channel value:
`locVal = (niBone_bind_rot_inv * (1.0 / niBone_bind_scale)) * (trans - niBone_bind_trans)`
followed by
`loc = (extra_matrix_rot_inv * (1.0 / extra_matrix_scale)) * (rot * size * extra_matrix_trans + locVal - extra_matrix_trans)`,
with `rot` the rotation matrix and `size` the uniform scale matrix in effect at
the key's frame. -/
def translationChannelValue (bindRotInv : Mat3) (bindScale : ℚ) (bindTrans : V3)
    (xRotInv : Mat3) (xScale : ℚ) (xTrans : V3)
    (rot : Mat3) (sizeVal : ℚ) (trans : V3) : V3 :=
  let locVal := (Mat3.smul (1 / bindScale) bindRotInv).mulVec (V3.sub trans bindTrans)
  let size : Mat3 := ⟨sizeVal, 0, 0, 0, sizeVal, 0, 0, 0, sizeVal⟩
  (Mat3.smul (1 / xScale) xRotInv).mulVec
    (V3.sub (V3.add ((rot.mul size).mulVec xTrans) locVal) xTrans)

/-! ### Per-bone keyframe emission order (NiKeyframeData branch)

The `elif isinstance(kfd, NifFormat.NiKeyframeData)` branch of
`import_armature_animation` runs, for one bone, the scale-key loop, then the
rotation-key loop (Euler or quaternion according to `kfd.rotation_type`), then
the translation-key loop; each `keyframe_insert` call is modelled as an emitted
`Sample`.  The `scale_keys_dict` / `rot_keys_dict` optimizer dictionaries
become association lists keyed by frame (Python dictionary semantics: a later
insertion for the same frame wins), and the slow fallback that evaluates the
already-inserted f-curves at a missing frame is a host call, passed in as the
oracles `evalRot` / `evalScale`.  Euler keys arrive already converted by
`euler.to_quaternion()` (a host trigonometric call), so rotation keys are
`(time, quaternion)` pairs plus the branch flag `eulerMode`. -/

/-- Channel of an emitted pose sample (`keyframe_insert` data path). -/
inductive Channel where
  | scale
  | rot
  | loc
deriving DecidableEq

/-- Value carried by an emitted pose sample. -/
inductive SampleVal where
  | s (v : ℚ)
  | r (q : Quat)
  | l (v : V3)
deriving DecidableEq

/-- One emitted pose sample: `keyframe_insert(data_path=..., frame=...)`. -/
@[ext] structure Sample where
  frame : ℤ
  chan : Channel
  val : SampleVal
deriving DecidableEq

/-- Lookup in a frame-keyed dictionary with Python semantics: the most recent
insertion for a frame wins. -/
def dictFind {α : Type} (d : List (ℤ × α)) (frame : ℤ) : Option α :=
  (d.reverse.find? fun p => p.1 = frame).map Prod.snd

/-- Rotation value used by the translation loop at a frame: the dictionary
value when present, the f-curve evaluation fallback when the dictionary is
nonempty but misses the frame, and the identity quaternion when no rotation
key was inserted at all (`rot_keys_dict` empty). -/
def rotAtFrame (rotDict : List (ℤ × Quat)) (evalRot : ℤ → Quat) (frame : ℤ) : Quat :=
  if rotDict = [] then Quat.one
  else
    match dictFind rotDict frame with
    | some q => q
    | none => evalRot frame

/-- Scale value used by the translation loop at a frame, analogously
(`sizeVal = 1.0` when `scale_keys_dict` is empty). -/
def sizeAtFrame (scaleDict : List (ℤ × ℚ)) (evalScale : ℤ → ℚ) (frame : ℤ) : ℚ :=
  if scaleDict = [] then 1
  else
    match dictFind scaleDict frame with
    | some v => v
    | none => evalScale frame

/-- Bind pose decomposition precomputed by `import_armature_animation`. -/
structure BindPose where
  scale : ℚ
  quatInv : Quat
  rotInv : Mat3
  trans : V3

/-- Extra/correction matrix decomposition precomputed by
`import_armature_animation` from `DICT_BONES_EXTRA_MATRIX`. -/
structure ExtraMat where
  scale : ℚ
  quat : Quat
  quatInv : Quat
  rotInv : Mat3
  trans : V3

/-- The completed `scale_keys_dict` (only built when translation keys exist). -/
def scaleDictOf (bind : BindPose) (fps : ℚ) (scaleKeys : List (ℚ × ℚ))
    (transKeys : List (ℚ × V3)) : List (ℤ × ℚ) :=
  if transKeys = [] then []
  else scaleKeys.map fun k => (frameOfTime k.1 fps, scaleChannelValue k.2 bind.scale)

/-- The completed `rot_keys_dict` (only built when translation keys exist). -/
def rotDictOf (bind : BindPose) (xm : ExtraMat) (fps : ℚ) (eulerMode : Bool)
    (rotKeys : List (ℚ × Quat)) (transKeys : List (ℚ × V3)) : List (ℤ × Quat) :=
  if transKeys = [] then []
  else
    rotKeys.map fun k =>
      (frameOfTime k.1 fps,
       if eulerMode then eulerRotValue k.2 bind.quatInv xm.quatInv xm.quat
       else quaternionRotValue k.2 bind.quatInv xm.quatInv xm.quat)

/-- The scale samples emitted by the scale-key loop. -/
def scaleSamplesOf (bind : BindPose) (fps : ℚ) (scaleKeys : List (ℚ × ℚ)) :
    List Sample :=
  scaleKeys.map fun k =>
    ⟨frameOfTime k.1 fps, Channel.scale, SampleVal.s (scaleChannelValue k.2 bind.scale)⟩

/-- The rotation samples emitted by the rotation-key loop. -/
def rotSamplesOf (bind : BindPose) (xm : ExtraMat) (fps : ℚ) (eulerMode : Bool)
    (rotKeys : List (ℚ × Quat)) : List Sample :=
  rotKeys.map fun k =>
    ⟨frameOfTime k.1 fps, Channel.rot,
     SampleVal.r
       (if eulerMode then eulerRotValue k.2 bind.quatInv xm.quatInv xm.quat
        else quaternionRotValue k.2 bind.quatInv xm.quatInv xm.quat)⟩

/-- The translation samples emitted by the translation-key loop, computed
against the completed rotation and scale dictionaries. -/
def transSamplesOf (bind : BindPose) (xm : ExtraMat) (fps : ℚ) (eulerMode : Bool)
    (scaleKeys : List (ℚ × ℚ)) (rotKeys : List (ℚ × Quat))
    (transKeys : List (ℚ × V3)) (evalRot : ℤ → Quat) (evalScale : ℤ → ℚ) :
    List Sample :=
  transKeys.map fun k =>
    let frame := frameOfTime k.1 fps
    let rotQ := rotAtFrame (rotDictOf bind xm fps eulerMode rotKeys transKeys) evalRot frame
    let sizeVal := sizeAtFrame (scaleDictOf bind fps scaleKeys transKeys) evalScale frame
    ⟨frame, Channel.loc,
     SampleVal.l
       (translationChannelValue bind.rotInv bind.scale bind.trans
         xm.rotInv xm.scale xm.trans (quatToMat rotQ) sizeVal k.2)⟩

/-- Embedding of the NiKeyframeData branch of
`ArmatureAnimation.import_armature_animation` for one bone: the scale loop
runs first, then the rotation loop, then the translation loop, in the order
the source executes them. -/
def import_armature_animation (bind : BindPose) (xm : ExtraMat) (fps : ℚ)
    (eulerMode : Bool) (scaleKeys : List (ℚ × ℚ)) (rotKeys : List (ℚ × Quat))
    (transKeys : List (ℚ × V3)) (evalRot : ℤ → Quat) (evalScale : ℤ → ℚ) :
    List Sample :=
  scaleSamplesOf bind fps scaleKeys
    ++ rotSamplesOf bind xm fps eulerMode rotKeys
    ++ transSamplesOf bind xm fps eulerMode scaleKeys rotKeys transKeys evalRot evalScale

/-! ## Helper lemmas -/

theorem Quat.one_mul (q : Quat) : Quat.mul Quat.one q = q := by
  cases q
  simp only [Quat.mul, Quat.one, Quat.mk.injEq]
  refine ⟨by ring, by ring, by ring, by ring⟩

theorem Quat.mul_one (q : Quat) : Quat.mul q Quat.one = q := by
  cases q
  simp only [Quat.mul, Quat.one, Quat.mk.injEq]
  refine ⟨by ring, by ring, by ring, by ring⟩

theorem Quat.mul_assoc (p q r : Quat) :
    Quat.mul (Quat.mul p q) r = Quat.mul p (Quat.mul q r) := by
  cases p; cases q; cases r
  simp only [Quat.mul, Quat.mk.injEq]
  refine ⟨by ring, by ring, by ring, by ring⟩

/-! ## Claim theorems -/

/-- C10: `find_correction_matrix` returns the identity matrix whenever
the realign-bones option is not 2 (full realign) or the given node is not
currently marked as a bone; a non-identity correction matrix can be returned
only in full-realign mode for a marked bone. -/
theorem claim_C10_identity_unless_full_realign (realign : ℤ) (isB : Bool)
    (sx sy sz : ℚ) (h : realign ≠ 2 ∨ isB = false) :
    find_correction_matrix realign isB sx sy sz = Mat3.id3 := by
  unfold find_correction_matrix
  rcases h with h | h
  · rw [if_neg fun hc => h hc.1]
  · rw [if_neg fun hc => by rw [h] at hc; exact Bool.false_ne_true hc.2]

/-- C10 witness: with realign mode 0 the correction matrix is the identity. -/
theorem claim_C10_witness :
    find_correction_matrix 0 true 1 2 3 = Mat3.id3 :=
  claim_C10_identity_unless_full_realign 0 true 1 2 3 (Or.inl (by decide))

/-- C8: the frame index assigned to an emitted sample is
`round(t * fps) + 1` (1-based frames, rounding half up, which is what
`1 + int(t * fps + 0.5)` computes for the nonnegative products arising from
key times and frame rates), and a key with time 0.0 maps to frame 1 exactly. -/
theorem claim_C8_frame_indexing (t fps : ℚ) (h : 0 ≤ t * fps) :
    frameOfTime t fps = round (t * fps) + 1 ∧ frameOfTime 0 fps = 1 := by
  constructor
  · unfold frameOfTime pytrunc
    rw [if_pos (by linarith), round_eq, add_comm]
  · unfold frameOfTime pytrunc
    rw [zero_mul, zero_add, if_pos (by norm_num)]
    norm_num [Int.floor_eq_zero_iff]

/-- C8 witness: a key at time 0.5 with fps 30 lands on frame 16, and time 0.0
lands on frame 1. -/
theorem claim_C8_witness :
    frameOfTime (1/2) 30 = round ((1/2 : ℚ) * 30) + 1 ∧ frameOfTime 0 30 = 1 :=
  claim_C8_frame_indexing (1/2) 30 (by norm_num)

/-- C7: with an identity bind pose (bind scale 1, bind rotation identity so
its inverse quaternion and inverse rotation matrix are the identity, bind
translation zero) and an identity correction/extra matrix, every retargeted
sample equals the raw key value: a scale key `s` yields pose scale `s`, a
rotation key `q` yields pose rotation `q` in each of the three encodings, and
a translation key `t` yields pose location `t` (whatever rotation matrix and
scale are in effect at that frame). -/
theorem claim_C7_identity_round_trip (s : ℚ) (q : Quat) (rot : Mat3)
    (sizeVal : ℚ) (t : V3) :
    scaleChannelValue s 1 = s ∧
    eulerRotValue q Quat.one Quat.one Quat.one = q ∧
    quaternionRotValue q Quat.one Quat.one Quat.one = q ∧
    bsplineRotValue q Quat.one Quat.one Quat.one = q ∧
    translationChannelValue Mat3.id3 1 V3.zero Mat3.id3 1 V3.zero rot sizeVal t = t := by
  refine ⟨div_one s, ?_, ?_, ?_, ?_⟩
  · rw [eulerRotValue, Quat.mul_one, Quat.one_mul, Quat.mul_one]
  · rw [quaternionRotValue, Quat.mul_one, Quat.one_mul, Quat.one_mul]
  · rw [bsplineRotValue, Quat.mul_one, Quat.one_mul, Quat.one_mul]
  · cases rot; cases t
    simp only [translationChannelValue, Mat3.smul, Mat3.mulVec, Mat3.mul, Mat3.id3,
      V3.sub, V3.add, V3.zero, V3.mk.injEq]
    refine ⟨by ring, by ring, by ring⟩

/-- C1 counterexample: the claim says all three rotation encodings compute
`X⁻¹ * (B⁻¹ * q) * X`.  At the concrete rotation key `q = (0,0,1,0)` with bind
inverse `B⁻¹ = (0,1,0,0)` and identity correction `X = 1`, the Euler branch
produces `(0,0,0,-1)` while the claimed conjugated delta (and the quaternion
branch) produce `(0,0,0,1)`. -/
theorem claim_C1_counterexample :
    eulerRotValue ⟨0, 0, 1, 0⟩ ⟨0, 1, 0, 0⟩ Quat.one Quat.one ≠
      Quat.mul (Quat.mul Quat.one (Quat.mul ⟨0, 1, 0, 0⟩ ⟨0, 0, 1, 0⟩)) Quat.one ∧
    eulerRotValue ⟨0, 0, 1, 0⟩ ⟨0, 1, 0, 0⟩ Quat.one Quat.one ≠
      quaternionRotValue ⟨0, 0, 1, 0⟩ ⟨0, 1, 0, 0⟩ Quat.one Quat.one := by
  refine ⟨?_, ?_⟩ <;>
    norm_num [eulerRotValue, quaternionRotValue, Quat.mul, Quat.one, Quat.mk.injEq]

/-- C1 amended: the quaternion and B-spline branches compute the conjugated
delta `X⁻¹ * (B⁻¹ * q) * X` as claimed, but the Euler branch computes
`X⁻¹ * (q * B⁻¹) * X` with the delta product reversed; when the correction
pair `(X⁻¹, X)` is a genuine two-sided inverse pair, the Euler branch agrees
with the other two exactly when `q` commutes with `B⁻¹`. -/
theorem claim_C1_amended (q binv xinv x : Quat)
    (hx1 : Quat.mul xinv x = Quat.one) (hx2 : Quat.mul x xinv = Quat.one) :
    quaternionRotValue q binv xinv x = Quat.mul (Quat.mul xinv (Quat.mul binv q)) x ∧
    bsplineRotValue q binv xinv x = Quat.mul (Quat.mul xinv (Quat.mul binv q)) x ∧
    eulerRotValue q binv xinv x = Quat.mul (Quat.mul xinv (Quat.mul q binv)) x ∧
    (eulerRotValue q binv xinv x = quaternionRotValue q binv xinv x ↔
      Quat.mul q binv = Quat.mul binv q) := by
  refine ⟨rfl, rfl, rfl, ?_, ?_⟩
  · intro h
    unfold eulerRotValue quaternionRotValue at h
    have key : ∀ u : Quat,
        Quat.mul (Quat.mul x (Quat.mul (Quat.mul xinv u) x)) xinv = u := by
      intro u
      rw [← Quat.mul_assoc x (Quat.mul xinv u) x, ← Quat.mul_assoc x xinv u, hx2,
        Quat.one_mul, Quat.mul_assoc u x xinv, hx2, Quat.mul_one]
    have h2 : Quat.mul (Quat.mul x (Quat.mul (Quat.mul xinv (Quat.mul q binv)) x)) xinv
        = Quat.mul (Quat.mul x (Quat.mul (Quat.mul xinv (Quat.mul binv q)) x)) xinv :=
      congrArg (fun r => Quat.mul (Quat.mul x r) xinv) h
    rw [key (Quat.mul q binv), key (Quat.mul binv q)] at h2
    exact h2
  · intro h
    unfold eulerRotValue quaternionRotValue
    rw [h]

/-- C1 amended witness: at the rotation key `(0,0,1,0)`, bind inverse
`(0,1,0,0)` and identity correction pair, the quaternion branch yields the
conjugated delta and the Euler branch yields the reversed product. -/
theorem claim_C1_amended_witness :
    quaternionRotValue ⟨0, 0, 1, 0⟩ ⟨0, 1, 0, 0⟩ Quat.one Quat.one =
      Quat.mul (Quat.mul Quat.one (Quat.mul ⟨0, 1, 0, 0⟩ ⟨0, 0, 1, 0⟩)) Quat.one ∧
    eulerRotValue ⟨0, 0, 1, 0⟩ ⟨0, 1, 0, 0⟩ Quat.one Quat.one =
      Quat.mul (Quat.mul Quat.one (Quat.mul ⟨0, 0, 1, 0⟩ ⟨0, 1, 0, 0⟩)) Quat.one :=
  have h := claim_C1_amended ⟨0, 0, 1, 0⟩ ⟨0, 1, 0, 0⟩ Quat.one Quat.one
    (Quat.one_mul Quat.one) (Quat.one_mul Quat.one)
  ⟨h.1, h.2.2.1⟩

/-- C9: `decompose_srt` has no failure path.  The non-uniform-scale check only
toggles the logged warning (the returned triple does not depend on the epsilon
used for it), the warning fires exactly when adjacent per-axis scale
components differ by at least epsilon, the returned scale is clamped to the
value derived from the first (X) scale component (replacing the Y and Z scale
components changes nothing), and the translation of the returned
scale/rotation/translation triple is the decomposed translation. -/
theorem claim_C9_decompose_srt_total (sq : ℚ → ℚ) (eps eps2 : ℚ) (tv : V3)
    (rq : Quat) (sv : V3) :
    ((decompose_srt sq eps tv rq sv).2 = true ↔
      (eps ≤ |sv.x - sv.y| ∨ eps ≤ |sv.y - sv.z|)) ∧
    (decompose_srt sq eps tv rq sv).1.scale =
      (decompose_srt sq eps tv rq ⟨sv.x, sv.x, sv.x⟩).1.scale ∧
    (decompose_srt sq eps tv rq sv).1.trans = tv ∧
    (decompose_srt sq eps tv rq sv).1 = (decompose_srt sq eps2 tv rq sv).1 := by
  refine ⟨by simp [decompose_srt], ?_, rfl, rfl⟩
  unfold decompose_srt
  by_cases h : (quatToMat rq).det < 0 <;> simp [h, V3.neg]

/-- Membership in the bone list is preserved by `complete_bone_tree`: the walk
only ever appends. -/
theorem mem_complete_bone_tree (parent : ℕ → ℕ) (skelroot a : ℕ) :
    ∀ (fuel bone : ℕ) (bones : List ℕ), a ∈ bones →
      a ∈ complete_bone_tree parent skelroot bone bones fuel := by
  intro fuel
  induction fuel with
  | zero => intro bone bones h; exact h
  | succ n ih =>
    intro bone bones h
    rw [complete_bone_tree]
    by_cases hp : parent bone = skelroot
    · rw [if_pos hp]; exact h
    · rw [if_neg hp]
      apply ih
      by_cases hmem : parent bone ∈ bones
      · rw [if_pos hmem]; exact h
      · rw [if_neg hmem]; exact List.mem_append_left _ h

/-- The recursion of `complete_bone_tree` stabilizes at the distance from the
bone to the skeleton root: any fuel at least that distance gives the same
result.  This is the termination argument of the source (each recursive call
strictly ascends the parent chain of a finite tree). -/
theorem complete_bone_tree_stable (parent : ℕ → ℕ) (skelroot : ℕ) :
    ∀ (k bone : ℕ) (bones : List ℕ),
      parent^[k + 1] bone = skelroot →
      (∀ i, i < k + 1 → parent^[i] bone ≠ skelroot) →
      ∀ fuel, k + 1 ≤ fuel →
        complete_bone_tree parent skelroot bone bones fuel =
          complete_bone_tree parent skelroot bone bones (k + 1) := by
  intro k
  induction k with
  | zero =>
    intro bone bones hk _ fuel hf
    obtain ⟨f, rfl⟩ : ∃ f, fuel = f + 1 := ⟨fuel - 1, by omega⟩
    have hp : parent bone = skelroot := by
      simpa using hk
    rw [complete_bone_tree, if_pos hp, complete_bone_tree, if_pos hp]
  | succ n ih =>
    intro bone bones hk hmin fuel hf
    obtain ⟨f, rfl⟩ : ∃ f, fuel = f + 1 := ⟨fuel - 1, by omega⟩
    have hp : parent bone ≠ skelroot := by
      simpa using hmin 1 (by omega)
    rw [complete_bone_tree, if_neg hp, complete_bone_tree, if_neg hp]
    apply ih
    · rw [← Function.iterate_succ_apply]
      exact hk
    · intro i hi
      rw [← Function.iterate_succ_apply]
      exact hmin (i + 1) (by omega)
    · omega

/-- Every node on the parent chain from the bone up to (excluding) the
skeleton root is in the bone list after the walk. -/
theorem complete_bone_tree_marks (parent : ℕ → ℕ) (skelroot : ℕ) :
    ∀ (k bone : ℕ) (bones : List ℕ),
      parent^[k + 1] bone = skelroot →
      (∀ i, i < k + 1 → parent^[i] bone ≠ skelroot) →
      bone ∈ bones →
      ∀ i, i < k + 1 →
        parent^[i] bone ∈ complete_bone_tree parent skelroot bone bones (k + 1) := by
  intro k
  induction k with
  | zero =>
    intro bone bones hk _ hb i hi
    have hi0 : i = 0 := by omega
    subst hi0
    have hp : parent bone = skelroot := by simpa using hk
    rw [complete_bone_tree, if_pos hp]
    exact hb
  | succ n ih =>
    intro bone bones hk hmin hb i hi
    have hp : parent bone ≠ skelroot := by simpa using hmin 1 (by omega)
    rw [complete_bone_tree, if_neg hp]
    have hmem : parent bone ∈
        (if parent bone ∈ bones then bones else bones ++ [parent bone]) := by
      by_cases hc : parent bone ∈ bones
      · rw [if_pos hc]; exact hc
      · rw [if_neg hc]; exact List.mem_append_right _ (List.mem_singleton_self _)
    rcases Nat.eq_zero_or_pos i with rfl | hipos
    · apply mem_complete_bone_tree
      by_cases hc : parent bone ∈ bones
      · rw [if_pos hc]; exact hb
      · rw [if_neg hc]; exact List.mem_append_left _ hb
    · obtain ⟨j, rfl⟩ : ∃ j, i = j + 1 := ⟨i - 1, by omega⟩
      rw [Function.iterate_succ_apply]
      apply ih (parent bone) _ _ _ hmem j (by omega)
      · rw [← Function.iterate_succ_apply]
        exact hk
      · intro i2 hi2
        rw [← Function.iterate_succ_apply]
        exact hmin (i2 + 1) (by omega)

/-- C3: when the bone is already marked in the armature's bone list and the
armature root is a strict ancestor at distance `k` along the parent chain
(the chain does not meet the root earlier), `complete_bone_tree` terminates —
the fueled recursion stabilizes: any fuel at least `k` yields the same result
— and afterwards every node on the parent chain from the bone up to
(excluding) the skeleton root is marked as a bone. -/
theorem claim_C3_complete_bone_tree (parent : ℕ → ℕ) (skelroot bone : ℕ)
    (bones : List ℕ) (k : ℕ) (h1 : 1 ≤ k)
    (hk : parent^[k] bone = skelroot)
    (hmin : ∀ i, i < k → parent^[i] bone ≠ skelroot)
    (hb : bone ∈ bones) :
    (∀ fuel, k ≤ fuel →
      complete_bone_tree parent skelroot bone bones fuel =
        complete_bone_tree parent skelroot bone bones k) ∧
    (∀ i, i < k →
      parent^[i] bone ∈ complete_bone_tree parent skelroot bone bones k) := by
  obtain ⟨m, rfl⟩ : ∃ m, k = m + 1 := ⟨k - 1, by omega⟩
  exact ⟨complete_bone_tree_stable parent skelroot m bone bones hk hmin,
    complete_bone_tree_marks parent skelroot m bone bones hk hmin hb⟩

/-- C3 witness: with the parent chain `3 → 2 → 1 → 0` and skeleton root 0,
the walk from bone 3 stabilizes for any fuel past 3 and has marked nodes
3, 2 and 1. -/
theorem claim_C3_witness :
    complete_bone_tree (fun n => n - 1) 0 3 [3] 7 =
      complete_bone_tree (fun n => n - 1) 0 3 [3] 3 ∧
    1 ∈ complete_bone_tree (fun n => n - 1) 0 3 [3] 3 ∧
    2 ∈ complete_bone_tree (fun n => n - 1) 0 3 [3] 3 ∧
    3 ∈ complete_bone_tree (fun n => n - 1) 0 3 [3] 3 := by
  have h := claim_C3_complete_bone_tree (fun n => n - 1) 0 3 [3] 3 (by omega)
    (by decide) (by decide) (by decide)
  exact ⟨h.1 7 (by omega), h.2 2 (by omega), h.2 1 (by omega), h.2 0 (by omega)⟩

/-- The dominant absolute component for a signed-axis candidate index
(indices 0 and 3 are the x axis, 1 and 4 the y axis, 2 and 5 the z axis). -/
def domAbs (sx sy sz : ℚ) (idx : ℕ) : ℚ :=
  if idx % 3 = 0 then |sx| else if idx % 3 = 1 then |sy| else |sz|

/-- The sum of the two non-dominant absolute components for a signed-axis
candidate index. -/
def nonDomSum (sx sy sz : ℚ) (idx : ℕ) : ℚ :=
  if idx % 3 = 0 then |sy| + |sz| else if idx % 3 = 1 then |sz| + |sx| else |sx| + |sy|

/-- The value of `listMax` is a member of a nonempty list and bounds every
member from above. -/
theorem listMax_spec :
    ∀ (as : List ℤ) (a : ℤ),
      listMax (a :: as) ∈ a :: as ∧ ∀ x ∈ a :: as, x ≤ listMax (a :: as) := by
  intro as
  induction as with
  | nil =>
    intro a
    refine ⟨List.mem_singleton_self a, ?_⟩
    intro x hx
    rw [List.mem_singleton.mp hx]
    exact le_refl _
  | cons b bs ih =>
    intro a
    have hred : listMax (a :: b :: bs) = listMax (max a b :: bs) := rfl
    obtain ⟨hmem, hle⟩ := ih (max a b)
    constructor
    · rw [hred]
      rcases List.mem_cons.mp hmem with h | h
      · rw [h]
        rcases max_choice a b with hm | hm <;> rw [hm] <;> simp
      · exact List.mem_cons_of_mem a (List.mem_cons_of_mem b h)
    · intro x hx
      rw [hred]
      rcases List.mem_cons.mp hx with rfl | hx2
      · exact le_trans (le_max_left x b) (hle _ (List.mem_cons_self _ _))
      rcases List.mem_cons.mp hx2 with rfl | hx3
      · exact le_trans (le_max_right a x) (hle _ (List.mem_cons_self _ _))
      · exact hle x (List.mem_cons_of_mem _ hx3)

theorem listMax_mem {l : List ℤ} (h : l ≠ []) : listMax l ∈ l := by
  cases l with
  | nil => exact absurd rfl h
  | cons a as => exact (listMax_spec as a).1

theorem le_listMax {l : List ℤ} {x : ℤ} (hx : x ∈ l) : x ≤ listMax l := by
  cases l with
  | nil => exact absurd hx (List.not_mem_nil x)
  | cons a as => exact (listMax_spec as a).2 x hx

/-- Entries strictly before the index found by `List.indexOf` differ from the
sought value (Python `list.index` returns the first occurrence). -/
theorem getD_ne_of_lt_indexOf (a : ℤ) :
    ∀ (l : List ℤ) (j : ℕ), j < l.indexOf a → l.getD j 0 ≠ a := by
  intro l
  induction l with
  | nil => intro j hj; simp [List.indexOf] at hj
  | cons b bs ih =>
    intro j hj
    by_cases hb : b = a
    · rw [List.indexOf_cons_eq _ hb] at hj; omega
    · rw [List.indexOf_cons_ne _ hb] at hj
      cases j with
      | zero => simpa using hb
      | succ j2 =>
        rw [List.getD_cons_succ]
        exact ih j2 (by omega)

theorem getD_pyIndexMax {l : List ℤ} (h : l ≠ []) :
    l.getD (pyIndexMax l) 0 = listMax l := by
  have hlt : l.indexOf (listMax l) < l.length :=
    List.indexOf_lt_length.mpr (listMax_mem h)
  rw [pyIndexMax, List.getD_eq_getElem _ _ hlt]
  exact List.getElem_indexOf hlt

/-- C2 counterexample: the claim's argmax is over the six real-valued signed
candidates, but the source truncates `c * 200` to an integer first and ties
go to the earliest index.  At the accumulated offset `(-1/1000, 0, 0)` the
unique real argmax among `(+x, +y, +z, -x, -y, -z)` is index 3 (the -x axis)
with the claim's alignment ratio `0 < 0.25`, so the claim selects the -X
correction matrix, yet the source returns the +X correction matrix (all six
truncated values are 0 and `list.index(max(...))` picks index 0). -/
theorem claim_C2_counterexample :
    find_correction_matrix 2 true (-1/1000) 0 0 =
      BONE_CORRECTION_MATRICES.getD 0 Mat3.id3 ∧
    BONE_CORRECTION_MATRICES.getD 0 Mat3.id3 ≠
      BONE_CORRECTION_MATRICES.getD 3 Mat3.id3 ∧
    (∀ j, j < 6 → j ≠ 3 →
      [(-1/1000 : ℚ), 0, 0, 1/1000, 0, 0].getD j 0 <
        [(-1/1000 : ℚ), 0, 0, 1/1000, 0, 0].getD 3 0) ∧
    ((0 : ℚ) + 0) / (1/1000) < 1/4 := by
  have ht : truncCandidates (-1/1000) 0 0 = [0, 0, 0, 0, 0, 0] := by
    norm_num [truncCandidates, pytrunc, Int.ceil_neg]
  have hidx : pyIndexMax (truncCandidates (-1/1000) 0 0) = 0 := by
    rw [ht]; decide
  refine ⟨?_, ?_, ?_, by norm_num⟩
  · have key : alignmentOffset (-1/1000) 0 0 0 = 0 := by
      unfold alignmentOffset
      rw [if_pos ⟨Or.inl rfl, by norm_num⟩]
      norm_num
    unfold find_correction_matrix
    rw [if_pos ⟨rfl, rfl⟩]
    simp only [hidx, key]
    rw [if_pos (by norm_num)]
  · norm_num [BONE_CORRECTION_MATRICES, Mat3.mk.injEq]
  · intro j hj hj3
    interval_cases j
    · norm_num
    · norm_num
    · norm_num
    · exact absurd rfl hj3
    · norm_num
    · norm_num

/-- C2 amended: the source's argmax is taken over the integer-truncated
values `int(c * 200)` of the six signed-axis candidates with ties resolved to
the earliest index in the order `(+x, +y, +z, -x, -y, -z)` (the chosen index
attains the maximum of the truncated values and every earlier entry is
strictly below it).  Whenever the dominant absolute component of the chosen
axis is nonzero, the returned matrix is the hardcoded correction matrix of
that axis exactly when `(sum of the two non-dominant absolute components) /
(dominant absolute component) < 0.25`, and the identity otherwise; alignment
offsets `0.24999` and `0.25001` select different branches and exactly `0.25`
yields the identity. -/
theorem claim_C2_amended (sx sy sz : ℚ) :
    pyIndexMax (truncCandidates sx sy sz) < 6 ∧
    (truncCandidates sx sy sz).getD (pyIndexMax (truncCandidates sx sy sz)) 0 =
      listMax (truncCandidates sx sy sz) ∧
    (∀ j, j < pyIndexMax (truncCandidates sx sy sz) →
      (truncCandidates sx sy sz).getD j 0 < listMax (truncCandidates sx sy sz)) ∧
    (domAbs sx sy sz (pyIndexMax (truncCandidates sx sy sz)) ≠ 0 →
      find_correction_matrix 2 true sx sy sz =
        (if nonDomSum sx sy sz (pyIndexMax (truncCandidates sx sy sz)) /
            domAbs sx sy sz (pyIndexMax (truncCandidates sx sy sz)) < 1/4 then
          BONE_CORRECTION_MATRICES.getD (pyIndexMax (truncCandidates sx sy sz)) Mat3.id3
        else Mat3.id3)) ∧
    find_correction_matrix 2 true 1 (24999/100000) 0 =
      BONE_CORRECTION_MATRICES.getD 0 Mat3.id3 ∧
    find_correction_matrix 2 true 1 (25001/100000) 0 = Mat3.id3 ∧
    find_correction_matrix 2 true 1 (1/4) 0 = Mat3.id3 := by
  have hne : truncCandidates sx sy sz ≠ [] := by simp [truncCandidates]
  have hlen : (truncCandidates sx sy sz).length = 6 := rfl
  have hidx : pyIndexMax (truncCandidates sx sy sz) < 6 := by
    rw [← hlen]
    exact List.indexOf_lt_length.mpr (listMax_mem hne)
  refine ⟨hidx, getD_pyIndexMax hne, ?_, ?_, ?_, ?_, ?_⟩
  · intro j hj
    have h1 := getD_ne_of_lt_indexOf (listMax (truncCandidates sx sy sz))
      (truncCandidates sx sy sz) j hj
    have hjlen : j < (truncCandidates sx sy sz).length := by
      rw [hlen]; omega
    have h2 : (truncCandidates sx sy sz).getD j 0 ∈ truncCandidates sx sy sz := by
      rw [List.getD_eq_getElem _ _ hjlen]
      exact List.getElem_mem hjlen
    exact lt_of_le_of_ne (le_listMax h2) h1
  · intro h
    unfold find_correction_matrix
    rw [if_pos ⟨rfl, rfl⟩]
    simp only []
    revert h
    generalize pyIndexMax (truncCandidates sx sy sz) = n at hidx
    intro h
    interval_cases n
    · have hpos : 0 < |sx| := (abs_nonneg sx).lt_of_ne
        (Ne.symm (by simpa [domAbs] using h))
      have key : alignmentOffset sx sy sz 0 = nonDomSum sx sy sz 0 / domAbs sx sy sz 0 := by
        unfold alignmentOffset
        rw [if_pos ⟨Or.inl rfl, hpos⟩]
        norm_num [domAbs, nonDomSum]
      rw [key]
    · have hpos : 0 < |sy| := (abs_nonneg sy).lt_of_ne
        (Ne.symm (by simpa [domAbs] using h))
      have key : alignmentOffset sx sy sz 1 = nonDomSum sx sy sz 1 / domAbs sx sy sz 1 := by
        unfold alignmentOffset
        rw [if_neg (by norm_num), if_pos ⟨Or.inl rfl, hpos⟩]
        norm_num [domAbs, nonDomSum]
      rw [key]
    · have hpos : 0 < |sz| := (abs_nonneg sz).lt_of_ne
        (Ne.symm (by simpa [domAbs] using h))
      have key : alignmentOffset sx sy sz 2 = nonDomSum sx sy sz 2 / domAbs sx sy sz 2 := by
        unfold alignmentOffset
        rw [if_neg (by norm_num), if_neg (by norm_num), if_pos hpos]
        norm_num [domAbs, nonDomSum]
      rw [key]
    · have hpos : 0 < |sx| := (abs_nonneg sx).lt_of_ne
        (Ne.symm (by simpa [domAbs] using h))
      have key : alignmentOffset sx sy sz 3 = nonDomSum sx sy sz 3 / domAbs sx sy sz 3 := by
        unfold alignmentOffset
        rw [if_pos ⟨Or.inr rfl, hpos⟩]
        norm_num [domAbs, nonDomSum]
      rw [key]
    · have hpos : 0 < |sy| := (abs_nonneg sy).lt_of_ne
        (Ne.symm (by simpa [domAbs] using h))
      have key : alignmentOffset sx sy sz 4 = nonDomSum sx sy sz 4 / domAbs sx sy sz 4 := by
        unfold alignmentOffset
        rw [if_neg (by norm_num), if_pos ⟨Or.inr rfl, hpos⟩]
        norm_num [domAbs, nonDomSum]
      rw [key]
    · have hpos : 0 < |sz| := (abs_nonneg sz).lt_of_ne
        (Ne.symm (by simpa [domAbs] using h))
      have key : alignmentOffset sx sy sz 5 = nonDomSum sx sy sz 5 / domAbs sx sy sz 5 := by
        unfold alignmentOffset
        rw [if_neg (by norm_num), if_neg (by norm_num), if_pos hpos]
        norm_num [domAbs, nonDomSum]
      rw [key]
  · have ht : truncCandidates 1 (24999/100000) 0 = [200, 49, 0, -200, -49, 0] := by
      norm_num [truncCandidates, pytrunc, Int.ceil_neg]
    have hidx2 : pyIndexMax (truncCandidates 1 (24999/100000) 0) = 0 := by
      rw [ht]; decide
    have key : alignmentOffset 1 (24999/100000) 0 0 = 24999/100000 := by
      unfold alignmentOffset
      rw [if_pos ⟨Or.inl rfl, by norm_num⟩]
      norm_num
    unfold find_correction_matrix
    rw [if_pos ⟨rfl, rfl⟩]
    simp only [hidx2, key]
    rw [if_pos (by norm_num)]
  · have ht : truncCandidates 1 (25001/100000) 0 = [200, 50, 0, -200, -50, 0] := by
      norm_num [truncCandidates, pytrunc, Int.ceil_neg]
    have hidx2 : pyIndexMax (truncCandidates 1 (25001/100000) 0) = 0 := by
      rw [ht]; decide
    have key : alignmentOffset 1 (25001/100000) 0 0 = 25001/100000 := by
      unfold alignmentOffset
      rw [if_pos ⟨Or.inl rfl, by norm_num⟩]
      norm_num
    unfold find_correction_matrix
    rw [if_pos ⟨rfl, rfl⟩]
    simp only [hidx2, key]
    rw [if_neg (by norm_num)]
  · have ht : truncCandidates 1 (1/4) 0 = [200, 50, 0, -200, -50, 0] := by
      norm_num [truncCandidates, pytrunc, Int.ceil_neg]
    have hidx2 : pyIndexMax (truncCandidates 1 (1/4) 0) = 0 := by
      rw [ht]; decide
    have key : alignmentOffset 1 (1/4) 0 0 = 1/4 := by
      unfold alignmentOffset
      rw [if_pos ⟨Or.inl rfl, by norm_num⟩]
      norm_num
    unfold find_correction_matrix
    rw [if_pos ⟨rfl, rfl⟩]
    simp only [hidx2, key]
    rw [if_neg (by norm_num)]

/-- C2 amended witness: at the accumulated offset `(3, 0, 0)` the dominant
component is nonzero and the selector returns the branch value, which is the
+X correction matrix. -/
theorem claim_C2_amended_witness :
    domAbs 3 0 0 (pyIndexMax (truncCandidates 3 0 0)) ≠ 0 ∧
    find_correction_matrix 2 true 3 0 0 =
      (if nonDomSum 3 0 0 (pyIndexMax (truncCandidates 3 0 0)) /
          domAbs 3 0 0 (pyIndexMax (truncCandidates 3 0 0)) < 1/4 then
        BONE_CORRECTION_MATRICES.getD (pyIndexMax (truncCandidates 3 0 0)) Mat3.id3
      else Mat3.id3) := by
  have hd : domAbs 3 0 0 (pyIndexMax (truncCandidates 3 0 0)) ≠ 0 := by
    have ht : truncCandidates 3 0 0 = [600, 0, 0, -600, 0, 0] := by
      norm_num [truncCandidates, pytrunc, Int.ceil_neg]
    have hidx : pyIndexMax (truncCandidates 3 0 0) = 0 := by rw [ht]; decide
    rw [hidx]
    norm_num [domAbs]
  exact ⟨hd, (claim_C2_amended 3 0 0).2.2.2.1 hd⟩

theorem fpsError_nonneg (fps : ℤ) (times : List ℚ) : 0 ≤ fpsError fps times := by
  apply List.sum_nonneg
  intro x hx
  obtain ⟨t, _, rfl⟩ := List.mem_map.mp hx
  exact abs_nonneg _

/-- The loop of `get_frames_per_second` keeps the first candidate attaining
the minimum total rounding error, in evaluation order 30, 20, 25, 35. -/
theorem gfps_fold_spec (times : List ℚ) (hne : times ≠ []) :
    (get_frames_per_second times = 30 ∨ get_frames_per_second times = 20 ∨
      get_frames_per_second times = 25 ∨ get_frames_per_second times = 35) ∧
    (fpsError (get_frames_per_second times) times ≤ fpsError 30 times ∧
      fpsError (get_frames_per_second times) times ≤ fpsError 20 times ∧
      fpsError (get_frames_per_second times) times ≤ fpsError 25 times ∧
      fpsError (get_frames_per_second times) times ≤ fpsError 35 times) ∧
    ((fpsError 30 times ≤ fpsError 20 times ∧ fpsError 30 times ≤ fpsError 25 times ∧
      fpsError 30 times ≤ fpsError 35 times) → get_frames_per_second times = 30) ∧
    ((fpsError 25 times = 0 ∧ 0 < fpsError 30 times ∧ 0 < fpsError 20 times ∧
      0 ≤ fpsError 35 times) → get_frames_per_second times = 25) := by
  rcases lt_or_le (fpsError 20 times) (fpsError 30 times) with h1 | h1
  · rcases lt_or_le (fpsError 25 times) (fpsError 20 times) with h2 | h2
    · rcases lt_or_le (fpsError 35 times) (fpsError 25 times) with h3 | h3
      · have hg : get_frames_per_second times = 35 := by
          unfold get_frames_per_second
          rw [if_neg hne]
          simp only [List.foldl_cons, List.foldl_nil]
          rw [if_pos h1, if_pos h2, if_pos h3]
        rw [hg]
        refine ⟨by norm_num, ⟨by linarith, by linarith, by linarith, by linarith⟩,
          fun htie => ?_, fun hspec => ?_⟩
        · exact absurd h1 (not_lt.mpr htie.1)
        · exact absurd h3 (not_lt.mpr (hspec.1 ▸ hspec.2.2.2))
      · have hg : get_frames_per_second times = 25 := by
          unfold get_frames_per_second
          rw [if_neg hne]
          simp only [List.foldl_cons, List.foldl_nil]
          rw [if_pos h1, if_pos h2, if_neg (not_lt.mpr h3)]
        rw [hg]
        refine ⟨by norm_num, ⟨by linarith, by linarith, by linarith, by linarith⟩,
          fun htie => ?_, fun _ => rfl⟩
        exact absurd h1 (not_lt.mpr htie.1)
    · rcases lt_or_le (fpsError 35 times) (fpsError 20 times) with h3 | h3
      · have hg : get_frames_per_second times = 35 := by
          unfold get_frames_per_second
          rw [if_neg hne]
          simp only [List.foldl_cons, List.foldl_nil]
          rw [if_pos h1, if_neg (not_lt.mpr h2), if_pos h3]
        rw [hg]
        refine ⟨by norm_num, ⟨by linarith, by linarith, by linarith, by linarith⟩,
          fun htie => ?_, fun hspec => ?_⟩
        · exact absurd h1 (not_lt.mpr htie.1)
        · exact absurd (hspec.1 ▸ h2) (not_le.mpr hspec.2.2.1)
      · have hg : get_frames_per_second times = 20 := by
          unfold get_frames_per_second
          rw [if_neg hne]
          simp only [List.foldl_cons, List.foldl_nil]
          rw [if_pos h1, if_neg (not_lt.mpr h2), if_neg (not_lt.mpr h3)]
        rw [hg]
        refine ⟨by norm_num, ⟨by linarith, by linarith, by linarith, by linarith⟩,
          fun htie => ?_, fun hspec => ?_⟩
        · exact absurd h1 (not_lt.mpr htie.1)
        · exact absurd (hspec.1 ▸ h2) (not_le.mpr hspec.2.2.1)
  · rcases lt_or_le (fpsError 25 times) (fpsError 30 times) with h2 | h2
    · rcases lt_or_le (fpsError 35 times) (fpsError 25 times) with h3 | h3
      · have hg : get_frames_per_second times = 35 := by
          unfold get_frames_per_second
          rw [if_neg hne]
          simp only [List.foldl_cons, List.foldl_nil]
          rw [if_neg (not_lt.mpr h1), if_pos h2, if_pos h3]
        rw [hg]
        refine ⟨by norm_num, ⟨by linarith, by linarith, by linarith, by linarith⟩,
          fun htie => ?_, fun hspec => ?_⟩
        · exact absurd h2 (not_lt.mpr htie.2.1)
        · exact absurd h3 (not_lt.mpr (hspec.1 ▸ hspec.2.2.2))
      · have hg : get_frames_per_second times = 25 := by
          unfold get_frames_per_second
          rw [if_neg hne]
          simp only [List.foldl_cons, List.foldl_nil]
          rw [if_neg (not_lt.mpr h1), if_pos h2, if_neg (not_lt.mpr h3)]
        rw [hg]
        refine ⟨by norm_num, ⟨by linarith, by linarith, by linarith, by linarith⟩,
          fun htie => ?_, fun _ => rfl⟩
        exact absurd h2 (not_lt.mpr htie.2.1)
    · rcases lt_or_le (fpsError 35 times) (fpsError 30 times) with h3 | h3
      · have hg : get_frames_per_second times = 35 := by
          unfold get_frames_per_second
          rw [if_neg hne]
          simp only [List.foldl_cons, List.foldl_nil]
          rw [if_neg (not_lt.mpr h1), if_neg (not_lt.mpr h2), if_pos h3]
        rw [hg]
        refine ⟨by norm_num, ⟨by linarith, by linarith, by linarith, by linarith⟩,
          fun htie => ?_, fun hspec => ?_⟩
        · exact absurd h3 (not_lt.mpr htie.2.2)
        · exact absurd (hspec.1 ▸ h2) (not_le.mpr hspec.2.1)
      · have hg : get_frames_per_second times = 30 := by
          unfold get_frames_per_second
          rw [if_neg hne]
          simp only [List.foldl_cons, List.foldl_nil]
          rw [if_neg (not_lt.mpr h1), if_neg (not_lt.mpr h2), if_neg (not_lt.mpr h3)]
        rw [hg]
        refine ⟨by norm_num, ⟨le_refl _, by linarith, by linarith, by linarith⟩,
          fun _ => rfl, fun hspec => ?_⟩
        exact absurd (hspec.1 ▸ h2) (not_le.mpr hspec.2.1)

/-- Rounding a cast nonnegative integer with the source's `int(q + 0.5)` gives
the integer back. -/
theorem pyround_intCast (k : ℤ) (hk : 0 ≤ k) : pyround (k : ℚ) = k := by
  unfold pyround pytrunc
  have hcast : (0 : ℚ) ≤ (k : ℚ) := Int.cast_nonneg.mpr hk
  rw [if_pos (by linarith), Int.floor_int_add]
  norm_num

theorem fpsError_zero_of_aligned (times : List ℚ)
    (h : ∀ t ∈ times, 0 ≤ t ∧ ∃ k : ℤ, t = (k : ℚ) / 25) :
    fpsError 25 times = 0 := by
  unfold fpsError
  apply List.sum_eq_zero
  intro x hx
  obtain ⟨t, ht, rfl⟩ := List.mem_map.mp hx
  obtain ⟨ht0, k, hk⟩ := h t ht
  have hk0 : 0 ≤ k := by
    rw [hk] at ht0
    have h25 : (0 : ℚ) ≤ (k : ℚ) := by linarith
    exact_mod_cast h25
  have ht25 : t * ((25 : ℤ) : ℚ) = (k : ℚ) := by
    rw [hk]
    push_cast
    field_simp
  rw [ht25, pyround_intCast k hk0, sub_self, abs_zero]

theorem fpsError_pos_of_witness (fps : ℤ) (times : List ℚ) (t0 : ℚ)
    (ht0 : t0 ∈ times) (h : ∀ z : ℤ, t0 * (fps : ℚ) ≠ (z : ℚ)) :
    0 < fpsError fps times := by
  unfold fpsError
  have hterm : 0 < |((pyround (t0 * (fps : ℚ)) : ℤ) : ℚ) - t0 * (fps : ℚ)| := by
    apply abs_pos.mpr
    intro hEq
    exact h (pyround (t0 * (fps : ℚ))) (sub_eq_zero.mp hEq).symm
  calc (0 : ℚ) < |((pyround (t0 * (fps : ℚ)) : ℤ) : ℚ) - t0 * (fps : ℚ)| := hterm
    _ ≤ _ := List.single_le_sum
        (fun x hx => by
          obtain ⟨t, _, rfl⟩ := List.mem_map.mp hx
          exact abs_nonneg _) _
        (List.mem_map_of_mem
          (fun t => |((pyround (t * (fps : ℚ)) : ℤ) : ℚ) - t * (fps : ℚ)|) ht0)

/-- A time aligned to 1/25 s but not to 1/5 s multiplied by 30, 20 or 35 is
not an integer number of frames. -/
theorem aligned_not_integral (k : ℤ) (hk : ∀ m : ℤ, (k : ℚ) / 25 ≠ (m : ℚ) / 5)
    (c : ℤ) (hc : c = 30 ∨ c = 20 ∨ c = 35) :
    ∀ z : ℤ, ((k : ℚ) / 25) * (c : ℚ) ≠ (z : ℚ) := by
  intro z hz
  have h1 : (k : ℚ) * (c : ℚ) = 25 * (z : ℚ) := by
    field_simp at hz
    linarith
  have h2 : k * c = 25 * z := by exact_mod_cast h1
  have h5 : k % 5 = 0 := by rcases hc with rfl | rfl | rfl <;> omega
  obtain ⟨m, hm⟩ : ∃ m, k = 5 * m := ⟨k / 5, by omega⟩
  apply hk m
  rw [hm]
  push_cast
  ring

/-- C5 counterexample: the timestamp 0.2 s = 5/25 s is exactly aligned to
1/25 s, but `get_frames_per_second [0.2]` returns 30, not 25: the rounding
error is zero at 30 fps as well, and ties keep the default 30 (the loop
replaces the best candidate only on strict improvement). -/
theorem claim_C5_counterexample :
    (5 : ℚ) / 25 * 25 = 5 ∧
    get_frames_per_second [(5 : ℚ) / 25] = 30 ∧
    (30 : ℤ) ≠ 25 := by
  refine ⟨by norm_num, ?_, by decide⟩
  have e30 : fpsError 30 [(5 : ℚ) / 25] = 0 := by
    norm_num [fpsError, pyround, pytrunc, List.map_cons, List.map_nil,
      List.sum_cons, List.sum_nil]
  have e20 : fpsError 20 [(5 : ℚ) / 25] = 0 := by
    norm_num [fpsError, pyround, pytrunc, List.map_cons, List.map_nil,
      List.sum_cons, List.sum_nil]
  have e25 : fpsError 25 [(5 : ℚ) / 25] = 0 := by
    norm_num [fpsError, pyround, pytrunc, List.map_cons, List.map_nil,
      List.sum_cons, List.sum_nil]
  have e35 : fpsError 35 [(5 : ℚ) / 25] = 0 := by
    norm_num [fpsError, pyround, pytrunc, List.map_cons, List.map_nil,
      List.sum_cons, List.sum_nil]
  unfold get_frames_per_second
  rw [if_neg (by simp)]
  simp only [List.foldl_cons, List.foldl_nil]
  rw [e30, e20, e25, e35, if_neg (lt_irrefl (0 : ℚ)), if_neg (lt_irrefl (0 : ℚ)),
    if_neg (lt_irrefl (0 : ℚ))]

/-- C5 amended: `get_frames_per_second` returns 30 on an empty key-time list;
on a nonempty list it returns the candidate from `{20, 25, 30, 35}` that
minimizes the total rounding error `sum(abs(int(t * fps + 0.5) - t * fps))`,
where 30 is evaluated first and a later candidate replaces the current best
only on strict improvement, so ties default to 30; and a set of timestamps
exactly aligned to 1/25 s, at least one of which is not also a whole multiple
of 1/5 s (whole multiples of 1/5 s are also frame-exact at 30 fps and the tie
keeps 30), selects 25. -/
theorem claim_C5_amended (times : List ℚ) (hne : times ≠ []) :
    get_frames_per_second [] = 30 ∧
    (get_frames_per_second times = 30 ∨ get_frames_per_second times = 20 ∨
      get_frames_per_second times = 25 ∨ get_frames_per_second times = 35) ∧
    (fpsError (get_frames_per_second times) times ≤ fpsError 30 times ∧
      fpsError (get_frames_per_second times) times ≤ fpsError 20 times ∧
      fpsError (get_frames_per_second times) times ≤ fpsError 25 times ∧
      fpsError (get_frames_per_second times) times ≤ fpsError 35 times) ∧
    ((fpsError 30 times ≤ fpsError 20 times ∧ fpsError 30 times ≤ fpsError 25 times ∧
      fpsError 30 times ≤ fpsError 35 times) → get_frames_per_second times = 30) ∧
    ((∀ t ∈ times, 0 ≤ t ∧ ∃ k : ℤ, t = (k : ℚ) / 25) →
      (∃ t ∈ times, ∀ m : ℤ, t ≠ (m : ℚ) / 5) →
      get_frames_per_second times = 25) := by
  obtain ⟨hmem, hmin, htie, hspec⟩ := gfps_fold_spec times hne
  refine ⟨rfl, hmem, hmin, htie, fun halign hwit => ?_⟩
  obtain ⟨t0, ht0, hm⟩ := hwit
  obtain ⟨ht00, k, hk⟩ := halign t0 ht0
  have hknot : ∀ m : ℤ, (k : ℚ) / 25 ≠ (m : ℚ) / 5 := by
    intro m
    rw [← hk]
    exact hm m
  have hpos : ∀ c : ℤ, c = 30 ∨ c = 20 ∨ c = 35 → 0 < fpsError c times := by
    intro c hc
    apply fpsError_pos_of_witness c times t0 ht0
    intro z
    rw [hk]
    exact aligned_not_integral k hknot c hc z
  exact hspec ⟨fpsError_zero_of_aligned times halign,
    hpos 30 (Or.inl rfl), hpos 20 (Or.inr (Or.inl rfl)), fpsError_nonneg 35 times⟩

/-- C5 amended witness: the single timestamp 1/25 s is aligned to 1/25 s and
not to 1/5 s, and the estimator selects 25; the empty list gives 30. -/
theorem claim_C5_amended_witness :
    get_frames_per_second [(1 : ℚ) / 25] = 25 ∧ get_frames_per_second [] = 30 := by
  have h := claim_C5_amended [(1 : ℚ) / 25] (by simp)
  refine ⟨h.2.2.2.2 ?_ ?_, h.1⟩
  · intro t ht
    rw [List.mem_singleton.mp ht]
    exact ⟨by norm_num, 1, by norm_num⟩
  · refine ⟨(1 : ℚ) / 25, List.mem_singleton_self _, ?_⟩
    intro m hm
    have h5 : (5 : ℚ) = m * 25 := by
      field_simp at hm
      linarith
    have hz : (5 : ℤ) = m * 25 := by exact_mod_cast h5
    omega

/-- The zero-length flag holds exactly when the bone has no bone children or
the signed component sum of `head - average(children)` is below the
epsilon-scaled threshold. -/
theorem isZeroLength_iff (eps : ℚ) (head : V3) (children : List V3) :
    isZeroLength eps head children = true ↔
      (children = [] ∨
        |(head.x - (childAverage children).x) + (head.y - (childAverage children).y) +
          (head.z - (childAverage children).z)| * 200 < eps) := by
  unfold isZeroLength
  by_cases hc : 0 < children.length
  · rw [if_pos hc]
    simp only [decide_eq_true_eq]
    constructor
    · exact Or.inr
    · intro h
      rcases h with h | h
      · rw [h] at hc
        exact absurd hc (by simp)
      · exact h
  · rw [if_neg hc]
    have hnil : children = [] := List.length_eq_zero.mp (by omega)
    simp [hnil]

/-- The zero-length flag is the third component of the `import_bone` result. -/
theorem import_bone_flag (realign : ℤ) (parentIsBone : Bool) (eps scale : ℚ)
    (normalize : V3 → V3) (head : V3) (children : List V3)
    (parentHead parentTail : V3) :
    (import_bone realign parentIsBone eps scale normalize head children
      parentHead parentTail).2.2 = isZeroLength eps head children := by
  unfold import_bone
  by_cases hz : isZeroLength eps head children = true
  · rw [if_pos hz, hz]
    split <;> rfl
  · rw [if_neg hz]
    rw [Bool.not_eq_true] at hz
    rw [hz]

/-- C6 counterexample: the claim classifies a bone as zero-length exactly when
all children coincide with the head within the threshold, but the source
tests the signed sum `dx + dy + dz`.  With head `(0,0,0)` and bone children
at `(1,0,0)` and `(1,-2,0)` the child average is `(1,-1,0)`, far from the
head, yet the signed components `(-1) + 1 + 0` cancel to zero, the bone is
classified zero-length, and the tail is overwritten with a nub (yielding
`(5,-1,0)` instead of the claimed average `(1,-1,0)`). -/
theorem claim_C6_counterexample :
    (import_bone 2 true (1/200) 1 (fun v => v) ⟨0, 0, 0⟩ [⟨1, 0, 0⟩, ⟨1, -2, 0⟩]
      ⟨0, 0, 0⟩ ⟨0, 0, 0⟩).2.2 = true ∧
    (import_bone 2 true (1/200) 1 (fun v => v) ⟨0, 0, 0⟩ [⟨1, 0, 0⟩, ⟨1, -2, 0⟩]
      ⟨0, 0, 0⟩ ⟨0, 0, 0⟩).2.1 = ⟨5, -1, 0⟩ ∧
    childAverage [⟨1, 0, 0⟩, ⟨1, -2, 0⟩] = ⟨1, -1, 0⟩ ∧
    (1/200 : ℚ) < |(1 : ℚ) - 0| := by
  have havg : childAverage [(⟨1, 0, 0⟩ : V3), ⟨1, -2, 0⟩] = ⟨1, -1, 0⟩ := by
    unfold childAverage
    norm_num [V3.mk.injEq]
  have hz : isZeroLength (1/200) ⟨0, 0, 0⟩ [(⟨1, 0, 0⟩ : V3), ⟨1, -2, 0⟩] = true := by
    unfold isZeroLength
    rw [if_pos (by norm_num), havg]
    norm_num
  have hbt : baseTail (⟨0, 0, 0⟩ : V3) [⟨1, 0, 0⟩, ⟨1, -2, 0⟩] = ⟨1, -1, 0⟩ := by
    unfold baseTail
    rw [if_pos (by norm_num), havg]
  refine ⟨?_, ?_, havg, by norm_num⟩
  · unfold import_bone
    rw [if_pos hz, if_pos (Or.inl rfl)]
  · unfold import_bone
    rw [if_pos hz, if_pos (Or.inl rfl)]
    rw [hbt]
    norm_num [V3.mk.injEq]

/-- C6 amended: `import_bone` keeps the head at the bone's own armature-space
position and, when the bone is not zero-length, sets the tail to the average
of its immediate bone children's positions with no nub.  The bone is
classified zero-length exactly when it has no bone children or the signed
component sum `dx + dy + dz` of `head - average(children)`, not the distance,
is below the epsilon-scaled threshold.  Only a zero-length bone receives a
synthetic nub: along the fixed +x direction at 5 x scale from the head's x
coordinate (keeping the pre-nub y and z) when full-realign is active or the
parent is not a bone, and otherwise along the normalized head - parent-tail
direction scaled by 5 x scale, falling back to the parent's head-to-tail
direction when that offset's signed component sum is below threshold; a bone
with head `(0,0,0)` and children `(1,0,0)` and `(3,0,0)` gets tail `(2,0,0)`
with no nub (for any epsilon at most 400). -/
theorem claim_C6_amended (realign : ℤ) (parentIsBone : Bool) (eps scale : ℚ)
    (normalize : V3 → V3) (head : V3) (children : List V3)
    (parentHead parentTail : V3) :
    (import_bone realign parentIsBone eps scale normalize head children
      parentHead parentTail).1 = head ∧
    ((import_bone realign parentIsBone eps scale normalize head children
      parentHead parentTail).2.2 = true ↔
      (children = [] ∨
        |(head.x - (childAverage children).x) + (head.y - (childAverage children).y) +
          (head.z - (childAverage children).z)| * 200 < eps)) ∧
    ((import_bone realign parentIsBone eps scale normalize head children
      parentHead parentTail).2.2 = false →
      (import_bone realign parentIsBone eps scale normalize head children
        parentHead parentTail).2.1 = childAverage children ∧ children ≠ []) ∧
    ((import_bone realign parentIsBone eps scale normalize head children
      parentHead parentTail).2.2 = true → (realign = 2 ∨ parentIsBone = false) →
      (import_bone realign parentIsBone eps scale normalize head children
        parentHead parentTail).2.1 =
        ⟨head.x + 5 * scale, (baseTail head children).y, (baseTail head children).z⟩) ∧
    ((import_bone realign parentIsBone eps scale normalize head children
      parentHead parentTail).2.2 = true → ¬(realign = 2 ∨ parentIsBone = false) →
      (import_bone realign parentIsBone eps scale normalize head children
        parentHead parentTail).2.1 =
        ⟨head.x + (normalize (if |(V3.sub head parentTail).x + (V3.sub head parentTail).y +
            (V3.sub head parentTail).z| * 200 < eps then V3.sub parentTail parentHead
          else V3.sub head parentTail)).x * 5 * scale,
         head.y + (normalize (if |(V3.sub head parentTail).x + (V3.sub head parentTail).y +
            (V3.sub head parentTail).z| * 200 < eps then V3.sub parentTail parentHead
          else V3.sub head parentTail)).y * 5 * scale,
         head.z + (normalize (if |(V3.sub head parentTail).x + (V3.sub head parentTail).y +
            (V3.sub head parentTail).z| * 200 < eps then V3.sub parentTail parentHead
          else V3.sub head parentTail)).z * 5 * scale⟩) ∧
    (eps ≤ 400 →
      import_bone realign parentIsBone eps scale normalize ⟨0, 0, 0⟩
        [⟨1, 0, 0⟩, ⟨3, 0, 0⟩] parentHead parentTail = (⟨0, 0, 0⟩, ⟨2, 0, 0⟩, false)) := by
  refine ⟨?_, ?_, ?_, ?_, ?_, ?_⟩
  · unfold import_bone
    split
    · split <;> rfl
    · rfl
  · rw [import_bone_flag]
    exact isZeroLength_iff eps head children
  · intro hf
    rw [import_bone_flag] at hf
    have hnotz : ¬isZeroLength eps head children = true := by rw [hf]; simp
    constructor
    · unfold import_bone
      rw [if_neg hnotz]
      unfold baseTail
      rcases Nat.eq_zero_or_pos children.length with h0 | hpos
      · rw [(isZeroLength_iff eps head children).mpr
          (Or.inl (List.length_eq_zero.mp h0))] at hf
        cases hf
      · rw [if_pos hpos]
    · intro hnil
      exact hnotz ((isZeroLength_iff eps head children).mpr (Or.inl hnil))
  · intro hf hcond
    rw [import_bone_flag] at hf
    unfold import_bone
    rw [if_pos hf, if_pos hcond]
  · intro hf hcond
    rw [import_bone_flag] at hf
    unfold import_bone
    rw [if_pos hf, if_neg hcond]
  · intro heps
    have havg : childAverage [(⟨1, 0, 0⟩ : V3), ⟨3, 0, 0⟩] = ⟨2, 0, 0⟩ := by
      unfold childAverage
      norm_num [V3.mk.injEq]
    have hz : isZeroLength eps ⟨0, 0, 0⟩ [(⟨1, 0, 0⟩ : V3), ⟨3, 0, 0⟩] = false := by
      unfold isZeroLength
      rw [if_pos (by norm_num), havg]
      simp only [decide_eq_false_iff_not]
      intro habs
      norm_num at habs
      linarith
    unfold import_bone
    rw [hz]
    simp only [Bool.false_eq_true, if_false]
    unfold baseTail
    rw [if_pos (by norm_num), havg]

/-- C6 amended witness: with realign mode 0, a bone parent, epsilon 1/1000,
unit scale and the identity in place of the host normalize, the bone with
head `(0,0,0)` and children `(1,0,0)`, `(3,0,0)` imports as head `(0,0,0)`,
tail `(2,0,0)`, not zero-length. -/
theorem claim_C6_amended_witness :
    import_bone 0 true (1/1000) 1 (fun v => v) ⟨0, 0, 0⟩ [⟨1, 0, 0⟩, ⟨3, 0, 0⟩]
      ⟨0, 0, 0⟩ ⟨0, 1, 0⟩ = (⟨0, 0, 0⟩, ⟨2, 0, 0⟩, false) :=
  (claim_C6_amended 0 true (1/1000) 1 (fun v => v) ⟨0, 0, 0⟩ [⟨1, 0, 0⟩, ⟨3, 0, 0⟩]
    ⟨0, 0, 0⟩ ⟨0, 1, 0⟩).2.2.2.2.2 (by norm_num)

/-- C4: per bone, the translation samples are emitted strictly after every
rotation and scale sample (the first `|scaleKeys| + |rotKeys|` emitted samples
carry no location channel and the remainder is exactly the translation-loop
output), each translation key's sample is computed from the completed
rotation and scale dictionaries at that exact frame, and the per-frame
resolution takes the dictionary entry when one exists for the frame and
defaults to the identity quaternion `(1,0,0,0)` and scale 1.0 when no
rotation/scale sample or channel exists at all. -/
theorem claim_C4_translation_ordering (bind : BindPose) (xm : ExtraMat) (fps : ℚ)
    (eulerMode : Bool) (scaleKeys : List (ℚ × ℚ)) (rotKeys : List (ℚ × Quat))
    (transKeys : List (ℚ × V3)) (evalRot : ℤ → Quat) (evalScale : ℤ → ℚ) :
    (∀ s ∈ (import_armature_animation bind xm fps eulerMode scaleKeys rotKeys
        transKeys evalRot evalScale).take (scaleKeys.length + rotKeys.length),
      s.chan ≠ Channel.loc) ∧
    (import_armature_animation bind xm fps eulerMode scaleKeys rotKeys transKeys
        evalRot evalScale).drop (scaleKeys.length + rotKeys.length) =
      transSamplesOf bind xm fps eulerMode scaleKeys rotKeys transKeys evalRot evalScale ∧
    (∀ s ∈ transSamplesOf bind xm fps eulerMode scaleKeys rotKeys transKeys
        evalRot evalScale, s.chan = Channel.loc) ∧
    (∀ k ∈ transKeys,
      (⟨frameOfTime k.1 fps, Channel.loc,
        SampleVal.l (translationChannelValue bind.rotInv bind.scale bind.trans
          xm.rotInv xm.scale xm.trans
          (quatToMat (rotAtFrame (rotDictOf bind xm fps eulerMode rotKeys transKeys)
            evalRot (frameOfTime k.1 fps)))
          (sizeAtFrame (scaleDictOf bind fps scaleKeys transKeys) evalScale
            (frameOfTime k.1 fps)) k.2)⟩ : Sample) ∈
        (import_armature_animation bind xm fps eulerMode scaleKeys rotKeys transKeys
          evalRot evalScale).drop (scaleKeys.length + rotKeys.length)) ∧
    (∀ (d : List (ℤ × Quat)) (e : ℤ → Quat) (frame : ℤ) (q : Quat),
      dictFind d frame = some q → rotAtFrame d e frame = q) ∧
    (∀ (e : ℤ → Quat) (frame : ℤ), rotAtFrame [] e frame = Quat.one) ∧
    (∀ (d : List (ℤ × ℚ)) (e : ℤ → ℚ) (frame : ℤ) (v : ℚ),
      dictFind d frame = some v → sizeAtFrame d e frame = v) ∧
    (∀ (e : ℤ → ℚ) (frame : ℤ), sizeAtFrame [] e frame = 1) := by
  have hlen : (scaleSamplesOf bind fps scaleKeys
      ++ rotSamplesOf bind xm fps eulerMode rotKeys).length =
      scaleKeys.length + rotKeys.length := by
    simp [scaleSamplesOf, rotSamplesOf]
  have htake : (import_armature_animation bind xm fps eulerMode scaleKeys rotKeys
      transKeys evalRot evalScale).take (scaleKeys.length + rotKeys.length) =
      scaleSamplesOf bind fps scaleKeys ++ rotSamplesOf bind xm fps eulerMode rotKeys := by
    unfold import_armature_animation
    rw [List.append_assoc, ← List.append_assoc, List.take_left' hlen]
  have hdrop : (import_armature_animation bind xm fps eulerMode scaleKeys rotKeys
      transKeys evalRot evalScale).drop (scaleKeys.length + rotKeys.length) =
      transSamplesOf bind xm fps eulerMode scaleKeys rotKeys transKeys evalRot evalScale := by
    unfold import_armature_animation
    rw [List.append_assoc, ← List.append_assoc, List.drop_left' hlen]
  refine ⟨?_, hdrop, ?_, ?_, ?_, ?_, ?_, ?_⟩
  · intro s hs
    rw [htake] at hs
    rcases List.mem_append.mp hs with h | h
    · obtain ⟨k, _, rfl⟩ := List.mem_map.mp h
      simp [scaleSamplesOf]
    · obtain ⟨k, _, rfl⟩ := List.mem_map.mp h
      simp [rotSamplesOf]
  · intro s hs
    obtain ⟨k, _, rfl⟩ := List.mem_map.mp hs
    rfl
  · intro k hk
    rw [hdrop]
    exact List.mem_map_of_mem _ hk
  · intro d e frame q hfind
    unfold rotAtFrame
    have hne : ¬d = [] := by
      intro hnil
      rw [hnil] at hfind
      simp [dictFind] at hfind
    rw [if_neg hne, hfind]
  · intro e frame
    unfold rotAtFrame
    rw [if_pos rfl]
  · intro d e frame v hfind
    unfold sizeAtFrame
    have hne : ¬d = [] := by
      intro hnil
      rw [hnil] at hfind
      simp [dictFind] at hfind
    rw [if_neg hne, hfind]
  · intro e frame
    unfold sizeAtFrame
    rw [if_pos rfl]

/-- C4 witness: resolving a rotation at a frame present in the completed
dictionary returns the stored quaternion, and with no rotation or scale
samples at all the defaults are the identity quaternion and scale 1. -/
theorem claim_C4_witness :
    rotAtFrame [((1 : ℤ), (⟨0, 1, 0, 0⟩ : Quat))] (fun _ => Quat.one) 1 = ⟨0, 1, 0, 0⟩ ∧
    rotAtFrame [] (fun _ => Quat.one) 5 = Quat.one ∧
    sizeAtFrame [] (fun _ => 1) 5 = 1 := by
  have h := claim_C4_translation_ordering ⟨1, Quat.one, Mat3.id3, V3.zero⟩
    ⟨1, Quat.one, Quat.one, Mat3.id3, V3.zero⟩ 30 false [] [] [] (fun _ => Quat.one)
    (fun _ => 1)
  exact ⟨h.2.2.2.2.1 [((1 : ℤ), (⟨0, 1, 0, 0⟩ : Quat))] (fun _ => Quat.one) 1
      ⟨0, 1, 0, 0⟩ rfl,
    h.2.2.2.2.2.1 (fun _ => Quat.one) 5,
    h.2.2.2.2.2.2.2 (fun _ => 1) 5⟩

end NifPlugin
